import Mathlib

/-!
Visual Product Matcher — verification of the similarity pipeline.

Shallow embedding of the core pipeline of the Visual Product Matcher
repository: embedding extraction (`getImageEmbedding`), vector
normalization (`normalizeVector`), cosine ranking (`cosineSimilarity`,
`findSimilarProducts`), the image URL normalizer (`normalizeImageUrl`)
and the image acquisition proxy route (`proxyGET`).

Modelling conventions:
* JavaScript IEEE-754 numbers are modelled as real numbers `ℝ`
  (exact arithmetic); `Math.sqrt` is `Real.sqrt`, `Math.max` is `max`.
  `Number.isFinite` is vacuously true in this model, because `ℝ` has no
  infinities or NaN.
* JavaScript strings are modelled as `List Char`; the platform WHATWG
  `URL` / `URLSearchParams` objects are modelled by a small parser and
  serializer for hierarchical `scheme://host/path?k=v&...` URLs
  (non-hierarchical URL forms are treated as unparseable).
* The decoded RGBA canvas buffer is modelled as a list of RGB pixels
  (the alpha byte is never read by the source loop).
-/

namespace VPM

/-! ## Vector math (imageMatching module) -/

/-- Sum of squares of a vector, the accumulator of
`vector.reduce((sum, value) => sum + value * value, 0)` in `normalizeVector`. -/
def sumSq (v : List ℝ) : ℝ := (v.map (fun x => x * x)).sum

/-- Function `normalizeVector` from the source: divide by the Euclidean magnitude,
returning the all-zero vector of the same length when the magnitude is `0`
(the source also tests `Number.isFinite(magnitude)`, which cannot fail in
the real-number model). -/
noncomputable def normalizeVector (v : List ℝ) : List ℝ :=
  if Real.sqrt (sumSq v) = 0 then v.map (fun _ => 0)
  else v.map (fun x => x / Real.sqrt (sumSq v))

/-- The indexed accumulator loop of `cosineSimilarity`:
`for (i = 0; i < n; i++) acc += a[i] * b[i]`. -/
noncomputable def sumMul (n : ℕ) (a b : List ℝ) : ℝ :=
  ∑ i ∈ Finset.range n, a.getD i 0 * b.getD i 0

/-- Function `cosineSimilarity` from the source: truncate both operands to the
shorter length, accumulate the dot product and both squared magnitudes,
return `0` when either squared magnitude is `0`, otherwise
`dot / Math.sqrt(magA * magB)`. -/
noncomputable def cosineSimilarity (a b : List ℝ) : ℝ :=
  if sumMul (min a.length b.length) a a = 0 ∨ sumMul (min a.length b.length) b b = 0 then 0
  else sumMul (min a.length b.length) a b /
    Real.sqrt (sumMul (min a.length b.length) a a * sumMul (min a.length b.length) b b)

/-! ## Embedding extraction -/

/-- One decoded RGB pixel; channel values are byte magnitudes (`0..255`
in the source, where they are read out of the canvas `ImageData`). -/
structure Pixel where
  r : ℕ
  g : ℕ
  b : ℕ

/-- Constant `CANVAS_SIZE` from the source. -/
def CANVAS_SIZE : ℕ := 48

/-- Per-pixel brightness `(r + g + b) / (3 * 255)`. -/
noncomputable def pixelBrightness (p : Pixel) : ℝ :=
  ((p.r + p.g + p.b : ℕ) : ℝ) / (3 * 255)

/-- Value `Math.max(r, g, b)` over the three channels. -/
def pixelMax (p : Pixel) : ℕ := max p.r (max p.g p.b)

/-- Value `Math.min(r, g, b)` over the three channels. -/
def pixelMin (p : Pixel) : ℕ := min p.r (min p.g p.b)

/-- Per-pixel saturation `max === 0 ? 0 : (max - min) / max`. -/
noncomputable def pixelSaturation (p : Pixel) : ℝ :=
  if pixelMax p = 0 then 0
  else ((pixelMax p : ℝ) - (pixelMin p : ℝ)) / (pixelMax p : ℝ)

/-- Function `getImageEmbedding` from the source, applied to the decoded pixel
buffer: accumulate channel totals, brightness, brightness squares and
saturation over all pixels, derive the six statistics and normalize.
The divisor `pixelCount` is the constant `CANVAS_SIZE * CANVAS_SIZE`
exactly as in the source. -/
noncomputable def getImageEmbedding (data : List Pixel) : List ℝ :=
  let pixelCount : ℝ := (CANVAS_SIZE * CANVAS_SIZE : ℕ)
  let redTotal : ℝ := (data.map (fun p => (p.r : ℝ))).sum
  let greenTotal : ℝ := (data.map (fun p => (p.g : ℝ))).sum
  let blueTotal : ℝ := (data.map (fun p => (p.b : ℝ))).sum
  let brightnessTotal : ℝ := (data.map pixelBrightness).sum
  let brightnessSquares : ℝ := (data.map (fun p => pixelBrightness p * pixelBrightness p)).sum
  let saturationTotal : ℝ := (data.map pixelSaturation).sum
  let avgBrightness := brightnessTotal / pixelCount
  let brightnessVariance := brightnessSquares / pixelCount - avgBrightness * avgBrightness
  let contrast := Real.sqrt (max brightnessVariance 0)
  let avgSaturation := saturationTotal / pixelCount
  normalizeVector [redTotal / (pixelCount * 255), greenTotal / (pixelCount * 255),
    blueTotal / (pixelCount * 255), avgBrightness, contrast, avgSaturation]

/-! Spec-side formulation of the six statistics, written from the spec's
derivation sentences, to be compared with `getImageEmbedding`. -/

/-- Modelled from the spec: `mean_r = sum_r / (N² · 255)`. -/
noncomputable def specMeanR (data : List Pixel) : ℝ :=
  (data.map (fun p => (p.r : ℝ))).sum / ((CANVAS_SIZE * CANVAS_SIZE : ℕ) * 255)

/-- Modelled from the spec: `mean_g = sum_g / (N² · 255)`. -/
noncomputable def specMeanG (data : List Pixel) : ℝ :=
  (data.map (fun p => (p.g : ℝ))).sum / ((CANVAS_SIZE * CANVAS_SIZE : ℕ) * 255)

/-- Modelled from the spec: `mean_b = sum_b / (N² · 255)`. -/
noncomputable def specMeanB (data : List Pixel) : ℝ :=
  (data.map (fun p => (p.b : ℝ))).sum / ((CANVAS_SIZE * CANVAS_SIZE : ℕ) * 255)

/-- Modelled from the spec: `mean_brightness` is the average of the
per-pixel brightness `(r+g+b)/(3·255)`. -/
noncomputable def specMeanBrightness (data : List Pixel) : ℝ :=
  (data.map pixelBrightness).sum / (CANVAS_SIZE * CANVAS_SIZE : ℕ)

/-- Modelled from the spec: `brightness_variance = sum_brightness²/N² − mean_brightness²`. -/
noncomputable def specBrightnessVariance (data : List Pixel) : ℝ :=
  (data.map (fun p => pixelBrightness p * pixelBrightness p)).sum / (CANVAS_SIZE * CANVAS_SIZE : ℕ)
    - specMeanBrightness data * specMeanBrightness data

/-- Modelled from the spec: `contrast` is the square root of the
brightness variance floored at `0`. -/
noncomputable def specContrast (data : List Pixel) : ℝ :=
  Real.sqrt (max (specBrightnessVariance data) 0)

/-- Modelled from the spec: `mean_saturation` is the average of the
per-pixel saturation. -/
noncomputable def specMeanSaturation (data : List Pixel) : ℝ :=
  (data.map pixelSaturation).sum / (CANVAS_SIZE * CANVAS_SIZE : ℕ)

/-! ## Ranking -/

/-- Interface `CatalogEmbedding` from the source. -/
structure CatalogEmbedding where
  id : ℤ
  embedding : List ℝ

/-- Interface `SimilarityScore` from the source. -/
structure SimilarityScore where
  id : ℤ
  similarity : ℝ

/-- The comparator `(a, b) => b.similarity - a.similarity` of the source's
`.sort`, as the "`a` may come before `b`" Boolean relation of a stable
sort (descending by similarity). -/
noncomputable def simLe (a b : SimilarityScore) : Bool :=
  b.similarity ≤ a.similarity

/-- The arrow function of the source's `.map`: score one catalog entry as
`Math.max(0, cosineSimilarity(imageEmbedding, normalizeVector(entry.embedding)) * 100)`. -/
noncomputable def scoreEntry (imageEmbedding : List ℝ) (entry : CatalogEmbedding) :
    SimilarityScore :=
  { id := entry.id,
    similarity :=
      max 0 (cosineSimilarity imageEmbedding (normalizeVector entry.embedding) * 100) }

/-- Function `findSimilarProducts` from the source: embed the query image, score
every catalog entry against the freshly normalized catalog embedding,
stable-sort descending by similarity and keep the first `topK` entries. -/
noncomputable def findSimilarProducts (sourceImage : List Pixel)
    (catalogEmbeddings : List CatalogEmbedding) (topK : ℕ := 12) : List SimilarityScore :=
  ((catalogEmbeddings.map (scoreEntry (getImageEmbedding sourceImage))).mergeSort
    simLe).take topK

/-! ## Basic lemmas about the vector math -/

theorem sumSq_nil : sumSq [] = 0 := rfl

theorem sumSq_cons (x : ℝ) (v : List ℝ) : sumSq (x :: v) = x * x + sumSq v := by
  simp [sumSq]

theorem sumSq_nonneg (v : List ℝ) : 0 ≤ sumSq v := by
  induction v with
  | nil => simp [sumSq]
  | cons x v ih =>
    rw [sumSq_cons]
    exact add_nonneg (mul_self_nonneg x) ih

theorem sumSq_map_div (v : List ℝ) (c : ℝ) :
    sumSq (v.map (fun x => x / c)) = sumSq v / (c * c) := by
  induction v with
  | nil => simp [sumSq]
  | cons x v ih =>
    rw [List.map_cons, sumSq_cons, sumSq_cons, ih]
    ring

theorem sumSq_map_zero (v : List ℝ) : sumSq (v.map (fun _ => (0 : ℝ))) = 0 := by
  induction v with
  | nil => simp [sumSq]
  | cons x v ih => rw [List.map_cons, sumSq_cons, ih]; ring

theorem sqrt_sumSq_eq_zero_iff (v : List ℝ) :
    Real.sqrt (sumSq v) = 0 ↔ sumSq v = 0 := by
  constructor
  · intro h
    exact le_antisymm (Real.sqrt_eq_zero'.mp h) (sumSq_nonneg v)
  · intro h
    rw [h, Real.sqrt_zero]

theorem normalizeVector_length (v : List ℝ) : (normalizeVector v).length = v.length := by
  by_cases h : Real.sqrt (sumSq v) = 0 <;> simp [normalizeVector, h]

theorem normalizeVector_of_zero {v : List ℝ} (h : Real.sqrt (sumSq v) = 0) :
    normalizeVector v = List.replicate v.length 0 := by
  rw [normalizeVector, if_pos h]
  simp [List.eq_replicate_iff]

theorem normalizeVector_of_ne_zero {v : List ℝ} (h : Real.sqrt (sumSq v) ≠ 0) :
    sumSq (normalizeVector v) = 1 := by
  have hs : sumSq v ≠ 0 := fun hz => h (by rw [hz, Real.sqrt_zero])
  rw [normalizeVector, if_neg h, sumSq_map_div,
    Real.mul_self_sqrt (sumSq_nonneg v), div_self hs]

/-! ## Lemmas about the cosine accumulators -/

theorem sumMul_self_nonneg (n : ℕ) (a : List ℝ) : 0 ≤ sumMul n a a :=
  Finset.sum_nonneg fun i _ => mul_self_nonneg (a.getD i 0)

/-- Cauchy–Schwarz for the truncated loop accumulators. -/
theorem sumMul_sq_le (n : ℕ) (a b : List ℝ) :
    sumMul n a b * sumMul n a b ≤ sumMul n a a * sumMul n b b := by
  have h := Finset.sum_mul_sq_le_sq_mul_sq (Finset.range n)
    (fun i => a.getD i 0) (fun i => b.getD i 0)
  simpa [sumMul, pow_two] using h

theorem cosineSimilarity_in_Icc (a b : List ℝ) :
    -1 ≤ cosineSimilarity a b ∧ cosineSimilarity a b ≤ 1 := by
  rw [cosineSimilarity]
  by_cases h : sumMul (min a.length b.length) a a = 0 ∨ sumMul (min a.length b.length) b b = 0
  · rw [if_pos h]; norm_num
  · rw [if_neg h]
    push_neg at h
    set n := min a.length b.length
    have hA : 0 < sumMul n a a := lt_of_le_of_ne (sumMul_self_nonneg n a) (Ne.symm h.1)
    have hB : 0 < sumMul n b b := lt_of_le_of_ne (sumMul_self_nonneg n b) (Ne.symm h.2)
    have hAB : 0 < sumMul n a a * sumMul n b b := mul_pos hA hB
    have hden : 0 < Real.sqrt (sumMul n a a * sumMul n b b) := Real.sqrt_pos.mpr hAB
    have habs : |sumMul n a b| ≤ Real.sqrt (sumMul n a a * sumMul n b b) := by
      have h1 : |sumMul n a b| = Real.sqrt (sumMul n a b * sumMul n a b) := by
        rw [← Real.sqrt_mul_self_eq_abs]
      rw [h1]
      exact Real.sqrt_le_sqrt (sumMul_sq_le n a b)
    constructor
    · rw [le_div_iff₀ hden]
      have := neg_abs_le (sumMul n a b)
      linarith
    · rw [div_le_one hden]
      have := le_abs_self (sumMul n a b)
      linarith

theorem score_in_Icc (x : ℝ) (h : x ≤ 1) :
    0 ≤ max 0 (x * 100) ∧ max 0 (x * 100) ≤ 100 :=
  ⟨le_max_left 0 _, max_le (by norm_num) (by linarith)⟩

/-- Any element of the ranked output is one of the mapped scores. -/
theorem mem_findSimilarProducts {img : List Pixel} {catalog : List CatalogEmbedding}
    {topK : ℕ} {s : SimilarityScore} (h : s ∈ findSimilarProducts img catalog topK) :
    ∃ e ∈ catalog, s = scoreEntry (getImageEmbedding img) e := by
  rw [findSimilarProducts] at h
  have h2 := List.mem_of_mem_take h
  rw [List.mem_mergeSort, List.mem_map] at h2
  obtain ⟨e, he, rfl⟩ := h2
  exact ⟨e, he, rfl⟩

/-! ## Lemmas about the sort comparator -/

theorem simLe_trans (a b c : SimilarityScore) (h1 : simLe a b) (h2 : simLe b c) :
    simLe a c := by
  simp only [simLe, decide_eq_true_eq] at *
  exact le_trans h2 h1

theorem simLe_total (a b : SimilarityScore) : simLe a b || simLe b a := by
  simp only [simLe, Bool.or_eq_true, decide_eq_true_eq]
  exact le_total _ _

theorem scored_map_id (q : List ℝ) (catalog : List CatalogEmbedding) :
    (catalog.map (scoreEntry q)).map SimilarityScore.id = catalog.map CatalogEmbedding.id := by
  rw [List.map_map]
  rfl

/-! ## Degenerate operands of the cosine loop -/

theorem getD_eq_zero_of_forall {a : List ℝ} (h : ∀ x ∈ a, x = 0) (i : ℕ) :
    a.getD i 0 = 0 := by
  by_cases hi : i < a.length
  · rw [List.getD_eq_getElem _ _ hi]
    exact h _ (List.getElem_mem hi)
  · exact List.getD_eq_default _ _ (le_of_not_lt hi)

theorem sumMul_self_zero_of_forall {a : List ℝ} (h : ∀ x ∈ a, x = 0) (n : ℕ) :
    sumMul n a a = 0 :=
  Finset.sum_eq_zero fun i _ => by rw [getD_eq_zero_of_forall h i, zero_mul]

theorem cosineSimilarity_of_degenerate {a b : List ℝ}
    (h : sumMul (min a.length b.length) a a = 0 ∨ sumMul (min a.length b.length) b b = 0) :
    cosineSimilarity a b = 0 := by
  rw [cosineSimilarity, if_pos h]

/-! ## URL model

JavaScript strings are `List Char`; the platform WHATWG `URL` and
`URLSearchParams` objects used by `normalizeImageUrl` and the proxy route
are modelled by a parser and serializer for hierarchical
`scheme://host/path?k=v&...` URLs. -/

abbrev UrlStr := List Char

/-- Split a string at the first occurrence of `c`: the part before it
and, when `c` occurs, the part after it (with `c` itself removed). -/
def breakFirst (c : Char) : UrlStr → UrlStr × Option UrlStr
  | [] => ([], none)
  | x :: xs =>
    if x = c then ([], some xs)
    else (x :: (breakFirst c xs).1, (breakFirst c xs).2)

/-- Accumulator loop splitting on every occurrence of a separator. -/
def splitSepAux (c : Char) : UrlStr → UrlStr → List UrlStr
  | [], acc => [acc.reverse]
  | x :: xs, acc =>
    if x = c then acc.reverse :: splitSepAux c xs []
    else splitSepAux c xs (x :: acc)

/-- Split on every occurrence of the separator `c`. -/
def splitSep (c : Char) (s : UrlStr) : List UrlStr := splitSepAux c s []

/-- One `k=v` piece of a query string; a piece without `=` is a key with
an empty value (WHATWG `URLSearchParams` behavior). -/
def parseQueryPiece (piece : UrlStr) : UrlStr × UrlStr :=
  match breakFirst '=' piece with
  | (k, some v) => (k, v)
  | (k, none) => (k, [])

/-- Model of `new URLSearchParams(query)`: split on `&`, skip empty
pieces, split each piece at its first `=`. -/
def parseQuery (s : UrlStr) : List (UrlStr × UrlStr) :=
  ((splitSep '&' s).filter (fun p => p ≠ [])).map parseQueryPiece

/-- Model of `searchParams.get(k)`: the value of the first pair with key `k`. -/
def getParam (ps : List (UrlStr × UrlStr)) (k : UrlStr) : Option UrlStr :=
  (ps.find? (fun p => p.1 = k)).map Prod.snd

/-- Model of `searchParams.has(k)`. -/
def hasParam (ps : List (UrlStr × UrlStr)) (k : UrlStr) : Bool :=
  ps.any (fun p => p.1 = k)

/-- Model of `searchParams.set(k, v)`: replace the value of the first pair with
key `k` (dropping later pairs with that key), or append when absent. -/
def setParam : List (UrlStr × UrlStr) → UrlStr → UrlStr → List (UrlStr × UrlStr)
  | [], k, v => [(k, v)]
  | p :: rest, k, v =>
    if p.1 = k then (k, v) :: rest.filter (fun q => q.1 ≠ k)
    else p :: setParam rest k v

/-- Model of `String.prototype.startsWith` for char lists (pattern first). -/
def startsWithSeq : UrlStr → UrlStr → Bool
  | [], _ => true
  | _ :: _, [] => false
  | p :: ps, x :: xs => p = x && startsWithSeq ps xs

/-- Model of `String.prototype.includes` for char lists (pattern first). -/
def containsSeq (pat : UrlStr) : UrlStr → Bool
  | [] => startsWithSeq pat []
  | x :: xs => startsWithSeq pat (x :: xs) || containsSeq pat xs

/-- The components of a parsed URL that the source reads or writes:
`protocol` (scheme), `hostname`, `pathname` and `searchParams`. -/
structure ParsedURL where
  scheme : UrlStr
  host : UrlStr
  path : UrlStr
  params : List (UrlStr × UrlStr)
deriving DecidableEq

/-- Query parameters of the part after `scheme://`. -/
def queryOf (hostRest : UrlStr) : List (UrlStr × UrlStr) :=
  match (breakFirst '?' hostRest).2 with
  | none => []
  | some q => parseQuery q

/-- Hostname of the part after `scheme://`. -/
def hostOf (hostRest : UrlStr) : UrlStr :=
  (breakFirst '/' (breakFirst '?' hostRest).1).1

/-- Pathname of the part after `scheme://` (`/` when no path is given,
as in WHATWG URLs). -/
def pathOf (hostRest : UrlStr) : UrlStr :=
  match (breakFirst '/' (breakFirst '?' hostRest).1).2 with
  | none => ['/']
  | some p => '/' :: p

/-- Modelled from the spec: the platform `new URL(...)` parser invoked by
the source, restricted to hierarchical `scheme://host/path?query` URLs;
any other shape is treated as unparseable (`none` — the `catch` branch
of the source). -/
def parseURL (s : UrlStr) : Option ParsedURL :=
  match breakFirst ':' s with
  | (scheme, some ('/' :: '/' :: hostRest)) =>
    if scheme = [] then none
    else if hostOf hostRest = [] then none
    else some ⟨scheme, hostOf hostRest, pathOf hostRest, queryOf hostRest⟩
  | _ => none

/-- Model of `URLSearchParams.toString()`: `k=v` pieces joined by `&`. -/
def serializeParams : List (UrlStr × UrlStr) → UrlStr
  | [] => []
  | [(k, v)] => k ++ '=' :: v
  | (k, v) :: rest => k ++ '=' :: (v ++ '&' :: serializeParams rest)

/-- Model of `URL.prototype.toString()`. -/
def serializeURL (u : ParsedURL) : UrlStr :=
  u.scheme ++ ':' :: '/' :: '/' ::
    (u.host ++ u.path ++ (if u.params = [] then [] else '?' :: serializeParams u.params))

/-! String constants appearing in `normalizeImageUrl`. -/

def googleHostPat : UrlStr := ['g', 'o', 'o', 'g', 'l', 'e', '.']

def imgresPat : UrlStr := ['/', 'i', 'm', 'g', 'r', 'e', 's']

def imgurlKey : UrlStr := ['i', 'm', 'g', 'u', 'r', 'l']

def unsplashHost : UrlStr :=
  ['i', 'm', 'a', 'g', 'e', 's', '.', 'u', 'n', 's', 'p', 'l', 'a', 's', 'h', '.', 'c', 'o', 'm']

def autoKey : UrlStr := ['a', 'u', 't', 'o']

def formatVal : UrlStr := ['f', 'o', 'r', 'm', 'a', 't']

def fitKey : UrlStr := ['f', 'i', 't']

def cropVal : UrlStr := ['c', 'r', 'o', 'p']

def fmKey : UrlStr := ['f', 'm']

def jpgVal : UrlStr := ['j', 'p', 'g']

/-- The source's Unsplash branch on the `searchParams` object: add each of
`auto=format`, `fit=crop`, `fm=jpg` only when its key is absent. -/
def ensureUnsplashParams (ps : List (UrlStr × UrlStr)) : List (UrlStr × UrlStr) :=
  let ps1 := if hasParam ps autoKey then ps else setParam ps autoKey formatVal
  let ps2 := if hasParam ps1 fitKey then ps1 else setParam ps1 fitKey cropVal
  if hasParam ps2 fmKey then ps2 else setParam ps2 fmKey jpgVal

/-- The tail of the source's `try` block: rewrite an Unsplash URL with the
completed query parameters; any other URL falls through to `return rawUrl`. -/
def unsplashStep (s : UrlStr) (u : ParsedURL) : UrlStr :=
  if containsSeq unsplashHost u.host then
    serializeURL { u with params := ensureUnsplashParams u.params }
  else s

/-! ### Length bounds used for the termination of `normalizeImageUrl` -/

theorem breakFirst_recon_some (c : Char) (s : UrlStr) :
    ∀ t, (breakFirst c s).2 = some t → s = (breakFirst c s).1 ++ c :: t := by
  induction s with
  | nil => intro t h; simp [breakFirst] at h
  | cons x xs ih =>
    intro t h
    by_cases hx : x = c
    · simp only [breakFirst, if_pos hx] at h ⊢
      cases h
      simp [hx]
    · simp only [breakFirst, if_neg hx] at h ⊢
      rw [List.cons_append]
      exact congrArg (List.cons x) (ih t h)

theorem breakFirst_recon_none (c : Char) (s : UrlStr) (h : (breakFirst c s).2 = none) :
    (breakFirst c s).1 = s := by
  induction s with
  | nil => simp [breakFirst]
  | cons x xs ih =>
    by_cases hx : x = c
    · simp only [breakFirst, if_pos hx] at h
      exact Option.noConfusion h
    · simp only [breakFirst, if_neg hx] at h ⊢
      rw [ih h]

theorem breakFirst_not_mem_fst (c : Char) (s : UrlStr) : c ∉ (breakFirst c s).1 := by
  induction s with
  | nil => simp [breakFirst]
  | cons x xs ih =>
    by_cases hx : x = c
    · simp [breakFirst, if_pos hx]
    · simp only [breakFirst, if_neg hx, List.mem_cons]
      rintro (h | h)
      · exact hx h.symm
      · exact ih h

theorem breakFirst_snd_length {c : Char} {s t : UrlStr}
    (h : (breakFirst c s).2 = some t) : t.length < s.length := by
  have hr := breakFirst_recon_some c s t h
  rw [hr, List.length_append, List.length_cons]
  omega

theorem breakFirst_fst_length (c : Char) (s : UrlStr) :
    (breakFirst c s).1.length ≤ s.length := by
  cases hsnd : (breakFirst c s).2 with
  | none => rw [breakFirst_recon_none c s hsnd]
  | some t =>
    have hr := breakFirst_recon_some c s t hsnd
    nth_rewrite 2 [hr]
    rw [List.length_append, List.length_cons]
    omega

theorem breakFirst_fst_mem {c : Char} {s : UrlStr} {x : Char}
    (h : x ∈ (breakFirst c s).1) : x ∈ s := by
  cases hsnd : (breakFirst c s).2 with
  | none => rw [← breakFirst_recon_none c s hsnd]; exact h
  | some t =>
    rw [breakFirst_recon_some c s t hsnd]
    exact List.mem_append_left _ h

theorem breakFirst_snd_mem {c : Char} {s t : UrlStr} {x : Char}
    (hsnd : (breakFirst c s).2 = some t) (h : x ∈ t) : x ∈ s := by
  rw [breakFirst_recon_some c s t hsnd]
  exact List.mem_append_right _ (List.mem_cons_of_mem _ h)

theorem splitSepAux_mem_length {c : Char} {t : UrlStr} :
    ∀ {s acc : UrlStr}, t ∈ splitSepAux c s acc → t.length ≤ acc.length + s.length := by
  intro s
  induction s with
  | nil =>
    intro acc h
    simp only [splitSepAux, List.mem_singleton] at h
    simp [h]
  | cons x xs ih =>
    intro acc h
    by_cases hx : x = c
    · simp only [splitSepAux, if_pos hx, List.mem_cons] at h
      rcases h with h | h
      · simp [h]
      · have := ih h
        simp only [List.length_nil] at this
        simp only [List.length_cons]
        omega
    · simp only [splitSepAux, if_neg hx] at h
      have := ih h
      simp only [List.length_cons] at this ⊢
      omega

theorem splitSepAux_mem_not_mem {c : Char} {t : UrlStr} :
    ∀ {s acc : UrlStr}, t ∈ splitSepAux c s acc → c ∉ acc → c ∉ t := by
  intro s
  induction s with
  | nil =>
    intro acc h hacc
    simp only [splitSepAux, List.mem_singleton] at h
    rw [h]
    simpa using hacc
  | cons x xs ih =>
    intro acc h hacc
    by_cases hx : x = c
    · simp only [splitSepAux, if_pos hx, List.mem_cons] at h
      rcases h with h | h
      · rw [h]; simpa using hacc
      · exact ih h (by simp)
    · simp only [splitSepAux, if_neg hx] at h
      refine ih h ?_
      simp only [List.mem_cons]
      rintro (h1 | h1)
      · exact hx h1.symm
      · exact hacc h1

theorem parseQueryPiece_snd_length (piece : UrlStr) :
    (parseQueryPiece piece).2.length ≤ piece.length := by
  rcases hb : breakFirst '=' piece with ⟨k, vOpt⟩
  cases vOpt with
  | none => simp [parseQueryPiece, hb]
  | some v =>
    have h2 : (breakFirst '=' piece).2 = some v := by rw [hb]
    have h3 := breakFirst_snd_length h2
    simp only [parseQueryPiece, hb]
    exact h3.le

theorem parseQuery_mem_snd_length {q : UrlStr} {kv : UrlStr × UrlStr}
    (h : kv ∈ parseQuery q) : kv.2.length ≤ q.length := by
  rw [parseQuery] at h
  rw [List.mem_map] at h
  obtain ⟨piece, hpiece, rfl⟩ := h
  have hp3 : piece ∈ splitSepAux '&' q [] := by
    simpa [splitSep] using List.mem_of_mem_filter hpiece
  have hlen : piece.length ≤ q.length := by
    have h4 := splitSepAux_mem_length hp3
    simpa using h4
  exact le_trans (parseQueryPiece_snd_length piece) hlen

theorem getParam_mem {ps : List (UrlStr × UrlStr)} {k v : UrlStr}
    (h : getParam ps k = some v) : ∃ kk, (kk, v) ∈ ps := by
  rw [getParam] at h
  cases hf : ps.find? (fun p => p.1 = k) with
  | none => rw [hf] at h; cases h
  | some p =>
    rw [hf] at h
    cases h
    exact ⟨p.1, by simpa using List.mem_of_find?_eq_some hf⟩

theorem queryOf_mem_snd_length {hostRest : UrlStr} {kv : UrlStr × UrlStr}
    (h : kv ∈ queryOf hostRest) : kv.2.length < hostRest.length := by
  rw [queryOf] at h
  cases hq : (breakFirst '?' hostRest).2 with
  | none => rw [hq] at h; cases h
  | some q =>
    rw [hq] at h
    have h1 := parseQuery_mem_snd_length h
    have h2 := breakFirst_snd_length hq
    omega

theorem getParam_parseURL_length {s : UrlStr} {u : ParsedURL} {k v : UrlStr}
    (hp : parseURL s = some u) (hg : getParam u.params k = some v) :
    v.length < s.length := by
  rw [parseURL] at hp
  split at hp
  · rename_i scheme hostRest heq
    split at hp
    · cases hp
    · split at hp
      · cases hp
      · cases hp
        obtain ⟨kk, hkv⟩ := getParam_mem hg
        have h1 := queryOf_mem_snd_length hkv
        have h2 : (breakFirst ':' s).2 = some ('/' :: '/' :: hostRest) := by
          rw [heq]
        have h3 := breakFirst_snd_length h2
        simp only [List.length_cons] at h3 h1 ⊢
        omega
  · cases hp

/-! ### `normalizeImageUrl` -/

/-- Function `normalizeImageUrl` from the source. An unparseable URL is returned
unchanged (the `catch` branch); a parsed google `/imgres` wrapper URL with
a non-empty `imgurl` parameter recurses into that parameter; otherwise an
Unsplash URL gets the completed format parameters and any other URL is
returned unchanged. The recursion is well-founded because a parsed
query-parameter value is strictly shorter than the URL containing it. -/
def normalizeImageUrl (s : UrlStr) : UrlStr :=
  match hp : parseURL s with
  | none => s
  | some u =>
    if containsSeq googleHostPat u.host && containsSeq imgresPat u.path then
      match hg : getParam u.params imgurlKey with
      | some v => if v = [] then unsplashStep s u else normalizeImageUrl v
      | none => unsplashStep s u
    else unsplashStep s u
termination_by s.length
decreasing_by exact getParam_parseURL_length hp hg

/-- Fuel-indexed version of `normalizeImageUrl`: takes at most `fuel`
wrapper-extraction steps and gives up (returning the input) when the
fuel runs out. -/
def normalizeImageUrlFuel : ℕ → UrlStr → UrlStr
  | 0, s => s
  | fuel + 1, s =>
    match parseURL s with
    | none => s
    | some u =>
      if containsSeq googleHostPat u.host && containsSeq imgresPat u.path then
        match getParam u.params imgurlKey with
        | some v => if v = [] then unsplashStep s u else normalizeImageUrlFuel fuel v
        | none => unsplashStep s u
      else unsplashStep s u

/-! ### Unfolding lemmas for `normalizeImageUrl` -/

theorem normalizeImageUrl_of_none {s : UrlStr} (h : parseURL s = none) :
    normalizeImageUrl s = s := by
  rw [normalizeImageUrl.eq_def]
  split
  · rfl
  · rename_i u heq
    rw [h] at heq
    cases heq

theorem normalizeImageUrl_of_google {s : UrlStr} {u : ParsedURL} {v : UrlStr}
    (h : parseURL s = some u)
    (hg : (containsSeq googleHostPat u.host && containsSeq imgresPat u.path) = true)
    (hv : getParam u.params imgurlKey = some v) (hne : v ≠ []) :
    normalizeImageUrl s = normalizeImageUrl v := by
  rw [normalizeImageUrl.eq_def]
  split
  · rename_i heq
    rw [h] at heq
    cases heq
  · rename_i u2 heq
    rw [h] at heq
    cases heq
    rw [if_pos hg]
    split
    · rename_i v2 heq2
      rw [hv] at heq2
      cases heq2
      rw [if_neg hne]
    · rename_i heq2
      rw [hv] at heq2
      cases heq2

theorem normalizeImageUrl_of_fall {s : UrlStr} {u : ParsedURL}
    (h : parseURL s = some u)
    (hfall : (containsSeq googleHostPat u.host && containsSeq imgresPat u.path) = false ∨
      getParam u.params imgurlKey = none ∨ getParam u.params imgurlKey = some []) :
    normalizeImageUrl s = unsplashStep s u := by
  rw [normalizeImageUrl.eq_def]
  split
  · rename_i heq
    rw [h] at heq
    cases heq
  · rename_i u2 heq
    rw [h] at heq
    cases heq
    rcases hfall with hf | hf | hf
    · rw [if_neg (by simp [hf])]
    · by_cases hgg : (containsSeq googleHostPat u.host && containsSeq imgresPat u.path) = true
      · rw [if_pos hgg]
        split
        · rename_i v2 heq2
          rw [hf] at heq2
          cases heq2
        · rfl
      · rw [if_neg hgg]
    · by_cases hgg : (containsSeq googleHostPat u.host && containsSeq imgresPat u.path) = true
      · rw [if_pos hgg]
        split
        · rename_i v2 heq2
          rw [hf] at heq2
          cases heq2
          rw [if_pos rfl]
        · rename_i heq2
          rw [hf] at heq2
      · rw [if_neg hgg]

/-! ### Parse/serialize roundtrip lemmas -/

theorem breakFirst_of_not_mem {c : Char} {s : UrlStr} (h : c ∉ s) :
    breakFirst c s = (s, none) := by
  induction s with
  | nil => rfl
  | cons x xs ih =>
    simp only [List.mem_cons, not_or] at h
    rw [breakFirst, if_neg (fun hx => h.1 hx.symm), ih h.2]

theorem breakFirst_append_first {c : Char} {pre : UrlStr} (post : UrlStr) (h : c ∉ pre) :
    breakFirst c (pre ++ c :: post) = (pre, some post) := by
  induction pre with
  | nil => simp [breakFirst]
  | cons x xs ih =>
    simp only [List.mem_cons, not_or] at h
    rw [List.cons_append, breakFirst, if_neg (fun hx => h.1 hx.symm), ih h.2]

theorem splitSepAux_of_not_mem {c : Char} {s : UrlStr} (acc : UrlStr) (h : c ∉ s) :
    splitSepAux c s acc = [acc.reverse ++ s] := by
  induction s generalizing acc with
  | nil => simp [splitSepAux]
  | cons x xs ih =>
    simp only [List.mem_cons, not_or] at h
    rw [splitSepAux, if_neg (fun hx => h.1 hx.symm), ih _ h.2]
    simp

theorem splitSepAux_append {c : Char} {piece : UrlStr} (rest : UrlStr) (acc : UrlStr)
    (h : c ∉ piece) :
    splitSepAux c (piece ++ c :: rest) acc = (acc.reverse ++ piece) :: splitSepAux c rest [] := by
  induction piece generalizing acc with
  | nil => simp [splitSepAux]
  | cons x xs ih =>
    simp only [List.mem_cons, not_or] at h
    rw [List.cons_append, splitSepAux, if_neg (fun hx => h.1 hx.symm), ih _ h.2]
    simp

/-- Wellformedness of a parameter list with respect to the query
serialization: keys are free of `&` and `=`, values free of `&`. -/
def WFParams (ps : List (UrlStr × UrlStr)) : Prop :=
  ∀ kv ∈ ps, '&' ∉ kv.1 ∧ '=' ∉ kv.1 ∧ '&' ∉ kv.2

theorem parseQueryPiece_serialized {k v : UrlStr} (hk : '=' ∉ k) :
    parseQueryPiece (k ++ '=' :: v) = (k, v) := by
  rw [parseQueryPiece, breakFirst_append_first v hk]

theorem parseQuery_serializeParams {ps : List (UrlStr × UrlStr)} (h : WFParams ps) :
    parseQuery (serializeParams ps) = ps := by
  induction ps with
  | nil => rfl
  | cons kv rest ih =>
    obtain ⟨k, v⟩ := kv
    obtain ⟨hk1, hk2, hk3⟩ := h (k, v) (List.mem_cons_self _ _)
    have hpc : '&' ∉ k ++ '=' :: v := by
      intro hmem
      rcases List.mem_append.mp hmem with h1 | h1
      · exact hk1 h1
      · rcases List.mem_cons.mp h1 with h2 | h2
        · exact absurd h2 (by decide)
        · exact hk3 h2
    cases rest with
    | nil =>
      rw [serializeParams, parseQuery, splitSep,
        splitSepAux_of_not_mem _ hpc, List.reverse_nil, List.nil_append]
      have hfil : List.filter (fun p => decide (p ≠ [])) [k ++ '=' :: v] = [k ++ '=' :: v] := by
        simp
      rw [hfil, List.map_cons, List.map_nil, parseQueryPiece_serialized hk2]
    | cons kv2 rest2 =>
      have hrest : WFParams (kv2 :: rest2) := fun x hx => h x (List.mem_cons_of_mem _ hx)
      have ihr := ih hrest
      rw [parseQuery, splitSep] at ihr
      have hser : serializeParams ((k, v) :: kv2 :: rest2)
          = (k ++ '=' :: v) ++ '&' :: serializeParams (kv2 :: rest2) := by
        show (k ++ '=' :: (v ++ '&' :: serializeParams (kv2 :: rest2))) = _
        simp
      rw [hser, parseQuery, splitSep, splitSepAux_append _ _ hpc,
        List.reverse_nil, List.nil_append]
      have hfil : List.filter (fun p => decide (p ≠ []))
          ((k ++ '=' :: v) :: splitSepAux '&' (serializeParams (kv2 :: rest2)) [])
          = (k ++ '=' :: v) ::
            List.filter (fun p => decide (p ≠ []))
              (splitSepAux '&' (serializeParams (kv2 :: rest2)) []) := by
        simp
      rw [hfil, List.map_cons, parseQueryPiece_serialized hk2, ihr]

theorem parseQueryPiece_fst (piece : UrlStr) :
    (parseQueryPiece piece).1 = (breakFirst '=' piece).1 := by
  rcases hb : breakFirst '=' piece with ⟨k, vo⟩
  cases vo <;> simp [parseQueryPiece, hb]

theorem parseQueryPiece_snd_cases (piece : UrlStr) :
    (parseQueryPiece piece).2 = [] ∨
      (breakFirst '=' piece).2 = some (parseQueryPiece piece).2 := by
  rcases hb : breakFirst '=' piece with ⟨k, vo⟩
  cases vo with
  | none => left; simp [parseQueryPiece, hb]
  | some v => right; simp [parseQueryPiece, hb]

theorem parseQuery_wellFormed (q : UrlStr) : WFParams (parseQuery q) := by
  intro kv hkv
  rw [parseQuery, List.mem_map] at hkv
  obtain ⟨piece, hpiece, rfl⟩ := hkv
  have hpm : piece ∈ splitSepAux '&' q [] := by
    simpa [splitSep] using List.mem_of_mem_filter hpiece
  have hamp : '&' ∉ piece := splitSepAux_mem_not_mem hpm (by simp)
  refine ⟨?_, ?_, ?_⟩
  · rw [parseQueryPiece_fst]
    intro hmem
    exact hamp (breakFirst_fst_mem hmem)
  · rw [parseQueryPiece_fst]
    exact breakFirst_not_mem_fst '=' piece
  · rcases parseQueryPiece_snd_cases piece with hc | hc
    · rw [hc]
      simp
    · intro hmem
      exact hamp (breakFirst_snd_mem hc hmem)

theorem queryOf_wellFormed (hostRest : UrlStr) : WFParams (queryOf hostRest) := by
  rw [queryOf]
  cases h : (breakFirst '?' hostRest).2 with
  | none => intro kv hkv; cases hkv
  | some q => exact parseQuery_wellFormed q

/-- Conditions under which the model serializer and parser are mutually
inverse; every URL produced by `parseURL` satisfies them. -/
def WellFormedURL (u : ParsedURL) : Prop :=
  u.scheme ≠ [] ∧ ':' ∉ u.scheme ∧
  u.host ≠ [] ∧ '/' ∉ u.host ∧ '?' ∉ u.host ∧
  (∃ p, u.path = '/' :: p) ∧ '?' ∉ u.path ∧
  WFParams u.params

theorem parseURL_wellFormed {s : UrlStr} {u : ParsedURL} (h : parseURL s = some u) :
    WellFormedURL u := by
  rw [parseURL] at h
  split at h
  · rename_i scheme hostRest heq
    split at h
    · cases h
    · split at h
      · cases h
      · rename_i hsch hhost
        cases h
        refine ⟨hsch, ?_, hhost, ?_, ?_, ?_, ?_, queryOf_wellFormed hostRest⟩
        · have hni := breakFirst_not_mem_fst ':' s
          rw [heq] at hni
          exact hni
        · exact breakFirst_not_mem_fst '/' _
        · intro hmem
          exact breakFirst_not_mem_fst '?' hostRest (breakFirst_fst_mem hmem)
        · rw [pathOf]
          cases hps : (breakFirst '/' (breakFirst '?' hostRest).1).2 with
          | none => exact ⟨[], rfl⟩
          | some pp => exact ⟨pp, rfl⟩
        · rw [pathOf]
          cases hps : (breakFirst '/' (breakFirst '?' hostRest).1).2 with
          | none => simp
          | some pp =>
            simp only [List.mem_cons, not_or]
            refine ⟨by decide, fun hmem => ?_⟩
            exact breakFirst_not_mem_fst '?' hostRest (breakFirst_snd_mem hps hmem)
  · cases h

theorem parseURL_serializeURL {u : ParsedURL} (h : WellFormedURL u) :
    parseURL (serializeURL u) = some u := by
  obtain ⟨sch, host, path, params⟩ := u
  obtain ⟨hs1, hs2, hh1, hh2, hh3, ⟨p, hpath⟩, hp2, hps⟩ := h
  simp only at hs1 hs2 hh1 hh2 hh3 hpath hp2 hps
  subst hpath
  have hq : '?' ∉ host ++ '/' :: p := by
    intro hmem
    rcases List.mem_append.mp hmem with h1 | h1
    · exact hh3 h1
    · exact hp2 h1
  have hsl : breakFirst '/' (host ++ '/' :: p) = (host, some p) :=
    breakFirst_append_first p hh2
  by_cases hnil : params = []
  · subst hnil
    have hser : serializeURL ⟨sch, host, '/' :: p, []⟩
        = sch ++ ':' :: '/' :: '/' :: (host ++ '/' :: p) := by
      simp [serializeURL]
    have hb : breakFirst ':' (serializeURL ⟨sch, host, '/' :: p, []⟩)
        = (sch, some ('/' :: '/' :: (host ++ '/' :: p))) := by
      rw [hser]
      exact breakFirst_append_first _ hs2
    rw [parseURL, hb]
    have hq2 : breakFirst '?' (host ++ '/' :: p) = (host ++ '/' :: p, none) :=
      breakFirst_of_not_mem hq
    simp only [hostOf, pathOf, queryOf, hq2, hsl]
    rw [if_neg hs1, if_neg hh1]
  · have hser : serializeURL ⟨sch, host, '/' :: p, params⟩
        = sch ++ ':' :: '/' :: '/' ::
            ((host ++ '/' :: p) ++ '?' :: serializeParams params) := by
      rw [serializeURL]
      simp [hnil]
    have hb : breakFirst ':' (serializeURL ⟨sch, host, '/' :: p, params⟩)
        = (sch, some ('/' :: '/' ::
            ((host ++ '/' :: p) ++ '?' :: serializeParams params))) := by
      rw [hser]
      exact breakFirst_append_first _ hs2
    rw [parseURL, hb]
    have hq2 : breakFirst '?' ((host ++ '/' :: p) ++ '?' :: serializeParams params)
        = (host ++ '/' :: p, some (serializeParams params)) :=
      breakFirst_append_first _ hq
    simp only [hostOf, pathOf, queryOf, hq2, hsl]
    rw [if_neg hs1, if_neg hh1, parseQuery_serializeParams hps]

/-! ### Structure of `ensureUnsplashParams` -/

theorem hasParam_append (ps qs : List (UrlStr × UrlStr)) (k : UrlStr) :
    hasParam (ps ++ qs) k = (hasParam ps k || hasParam qs k) := by
  simp [hasParam, List.any_append]

theorem getParam_append (ps qs : List (UrlStr × UrlStr)) (k : UrlStr) :
    getParam (ps ++ qs) k = if hasParam ps k then getParam ps k else getParam qs k := by
  induction ps with
  | nil => simp [getParam, hasParam]
  | cons q rest ih =>
    by_cases hq : q.1 = k
    · simp [getParam, hasParam, List.find?_cons, hq]
    · have hd : (decide (q.1 = k)) = false := by simp [hq]
      simp only [List.cons_append, getParam, hasParam, List.find?_cons, List.any_cons, hd,
        Bool.false_or, if_neg] at ih ⊢
      exact ih

theorem getParam_of_not_has {ps : List (UrlStr × UrlStr)} {k : UrlStr}
    (h : hasParam ps k = false) : getParam ps k = none := by
  induction ps with
  | nil => rfl
  | cons q rest ih =>
    simp only [hasParam, List.any_cons, Bool.or_eq_false_iff] at h
    simp only [getParam, List.find?_cons, h.1]
    exact ih h.2

theorem setParam_of_not_has {ps : List (UrlStr × UrlStr)} {k : UrlStr} (v : UrlStr)
    (h : hasParam ps k = false) : setParam ps k v = ps ++ [(k, v)] := by
  induction ps with
  | nil => rfl
  | cons q rest ih =>
    simp only [hasParam, List.any_cons, Bool.or_eq_false_iff, decide_eq_false_iff_not] at h
    rw [setParam, if_neg h.1, List.cons_append]
    exact congrArg _ (ih (by simp [hasParam, h.2]))

/-- The parameters that `ensureUnsplashParams` appends: exactly the
missing ones among `auto=format`, `fit=crop`, `fm=jpg`. -/
def missingUnsplashParams (ps : List (UrlStr × UrlStr)) : List (UrlStr × UrlStr) :=
  (if hasParam ps autoKey then [] else [(autoKey, formatVal)]) ++
    ((if hasParam ps fitKey then [] else [(fitKey, cropVal)]) ++
      (if hasParam ps fmKey then [] else [(fmKey, jpgVal)]))

theorem ensureUnsplashParams_eq (ps : List (UrlStr × UrlStr)) :
    ensureUnsplashParams ps = ps ++ missingUnsplashParams ps := by
  have haf : hasParam [(autoKey, formatVal)] fitKey = false := by decide
  have ham : hasParam [(autoKey, formatVal)] fmKey = false := by decide
  have hfm : hasParam [(fitKey, cropVal)] fmKey = false := by decide
  have hff : hasParam [(autoKey, formatVal), (fitKey, cropVal)] fmKey = false := by decide
  by_cases h1 : hasParam ps autoKey <;> by_cases h2 : hasParam ps fitKey <;>
    by_cases h3 : hasParam ps fmKey <;>
    simp [ensureUnsplashParams, missingUnsplashParams, h1, h2, h3,
      setParam_of_not_has, hasParam_append, haf, ham, hfm, hff, List.append_assoc]

theorem missingUnsplashParams_mem {ps : List (UrlStr × UrlStr)} {kv : UrlStr × UrlStr}
    (h : kv ∈ missingUnsplashParams ps) :
    kv = (autoKey, formatVal) ∨ kv = (fitKey, cropVal) ∨ kv = (fmKey, jpgVal) := by
  by_cases h1 : hasParam ps autoKey <;> by_cases h2 : hasParam ps fitKey <;>
    by_cases h3 : hasParam ps fmKey <;>
    simp [missingUnsplashParams, h1, h2, h3] at h <;> tauto

theorem ensureUnsplashParams_wellFormed {ps : List (UrlStr × UrlStr)} (h : WFParams ps) :
    WFParams (ensureUnsplashParams ps) := by
  rw [ensureUnsplashParams_eq]
  intro kv hkv
  rcases List.mem_append.mp hkv with hm | hm
  · exact h kv hm
  · rcases missingUnsplashParams_mem hm with rfl | rfl | rfl <;>
      exact ⟨by decide, by decide, by decide⟩

theorem ensureUnsplashParams_has (ps : List (UrlStr × UrlStr)) :
    hasParam (ensureUnsplashParams ps) autoKey = true ∧
    hasParam (ensureUnsplashParams ps) fitKey = true ∧
    hasParam (ensureUnsplashParams ps) fmKey = true := by
  have f1 : hasParam [(autoKey, formatVal)] autoKey = true := by decide
  have f2 : hasParam [(fitKey, cropVal)] fitKey = true := by decide
  have f3 : hasParam [(fmKey, jpgVal)] fmKey = true := by decide
  have g1 : hasParam [(autoKey, formatVal)] fitKey = false := by decide
  have g2 : hasParam [(autoKey, formatVal)] fmKey = false := by decide
  have g3 : hasParam [(fitKey, cropVal)] fmKey = false := by decide
  rw [ensureUnsplashParams_eq]
  by_cases h1 : hasParam ps autoKey <;> by_cases h2 : hasParam ps fitKey <;>
    by_cases h3 : hasParam ps fmKey <;>
    simp [missingUnsplashParams, h1, h2, h3, hasParam_append, f1, f2, f3, g1, g2, g3] <;>
    decide

theorem ensureUnsplashParams_defaults (ps : List (UrlStr × UrlStr)) :
    (hasParam ps autoKey = false →
      getParam (ensureUnsplashParams ps) autoKey = some formatVal) ∧
    (hasParam ps fitKey = false →
      getParam (ensureUnsplashParams ps) fitKey = some cropVal) ∧
    (hasParam ps fmKey = false →
      getParam (ensureUnsplashParams ps) fmKey = some jpgVal) := by
  have f1 : getParam [(autoKey, formatVal)] autoKey = some formatVal := by decide
  have f2 : getParam [(fitKey, cropVal)] fitKey = some cropVal := by decide
  have f3 : getParam [(fmKey, jpgVal)] fmKey = some jpgVal := by decide
  have g1 : hasParam [(autoKey, formatVal)] fitKey = false := by decide
  have g2 : hasParam [(autoKey, formatVal)] fmKey = false := by decide
  have g3 : hasParam [(fitKey, cropVal)] fmKey = false := by decide
  have e1 : hasParam [(autoKey, formatVal)] autoKey = true := by decide
  have e2 : hasParam [(fitKey, cropVal)] fitKey = true := by decide
  have e3 : hasParam [(fmKey, jpgVal)] fmKey = true := by decide
  rw [ensureUnsplashParams_eq]
  by_cases h1 : hasParam ps autoKey <;> by_cases h2 : hasParam ps fitKey <;>
    by_cases h3 : hasParam ps fmKey <;>
    simp [missingUnsplashParams, h1, h2, h3, getParam_append, hasParam_append,
      f1, f2, f3, g1, g2, g3, e1, e2, e3, getParam_of_not_has] <;>
    decide

theorem ensureUnsplashParams_other_keys (ps : List (UrlStr × UrlStr)) (k : UrlStr)
    (hk1 : k ≠ autoKey) (hk2 : k ≠ fitKey) (hk3 : k ≠ fmKey) :
    hasParam (ensureUnsplashParams ps) k = hasParam ps k ∧
    getParam (ensureUnsplashParams ps) k = getParam ps k := by
  have hk1' : ¬(autoKey = k) := fun h => hk1 h.symm
  have hk2' : ¬(fitKey = k) := fun h => hk2 h.symm
  have hk3' : ¬(fmKey = k) := fun h => hk3 h.symm
  have hmiss : hasParam (missingUnsplashParams ps) k = false := by
    by_cases h1 : hasParam ps autoKey <;> by_cases h2 : hasParam ps fitKey <;>
      by_cases h3 : hasParam ps fmKey <;>
      simp [missingUnsplashParams, h1, h2, h3, hasParam_append, hasParam, hk1', hk2', hk3']
  constructor
  · rw [ensureUnsplashParams_eq, hasParam_append, hmiss, Bool.or_false]
  · rw [ensureUnsplashParams_eq, getParam_append]
    by_cases hps : hasParam ps k
    · rw [if_pos hps]
    · rw [if_neg hps, getParam_of_not_has hmiss,
        getParam_of_not_has (Bool.not_eq_true _ ▸ hps)]

/-! ## Image acquisition proxy -/

/-- The body of a proxy response: a JSON error object `{ "error": msg }`
or the streamed upstream bytes. -/
inductive ProxyBody where
  | jsonError (msg : String)
  | stream
deriving DecidableEq

/-- An HTTP response produced by the proxy route. -/
structure ProxyResponse where
  status : ℕ
  body : ProxyBody
deriving DecidableEq

/-- The parts of the upstream `fetch` response the route reads: `ok`,
`status` (`0` models a JS falsy/unavailable status) and whether a body
stream is present. -/
structure UpstreamResponse where
  ok : Bool
  status : ℕ
  hasBody : Bool

/-- Outcome of the outbound `fetch`: a response, or a thrown transport
error (the `catch` branch). -/
inductive FetchOutcome where
  | resp (r : UpstreamResponse)
  | throws

def httpScheme : UrlStr := ['h', 't', 't', 'p']

def httpsScheme : UrlStr := ['h', 't', 't', 'p', 's']

/-- The `GET` handler of `app/api/image-proxy/route.ts`, as a function of
the `url` query parameter (absent, or its string value — a JS empty
string is falsy, hence also "missing") and an oracle for the outbound
`fetch` on the serialized validated URL. -/
def proxyGET (target : Option UrlStr) (fetch : UrlStr → FetchOutcome) : ProxyResponse :=
  match target with
  | none => ⟨400, .jsonError "Missing url query parameter"⟩
  | some t =>
    if t = [] then ⟨400, .jsonError "Missing url query parameter"⟩
    else
      match parseURL (normalizeImageUrl t) with
      | none => ⟨400, .jsonError "Invalid URL supplied"⟩
      | some u =>
        if u.scheme = httpScheme ∨ u.scheme = httpsScheme then
          match fetch (serializeURL u) with
          | .throws => ⟨502, .jsonError "Unexpected proxy failure"⟩
          | .resp r =>
            if r.ok = false ∨ r.hasBody = false then
              ⟨if r.status = 0 then 502 else r.status, .jsonError "Failed to fetch remote image"⟩
            else ⟨200, .stream⟩
        else ⟨400, .jsonError "Only http and https protocols are allowed"⟩

/-- Sum of squares of an all-zero list. -/
theorem sumSq_replicate_zero (n : ℕ) : sumSq (List.replicate n (0 : ℝ)) = 0 := by
  induction n with
  | zero => rfl
  | succ n ih => rw [List.replicate_succ, sumSq_cons, ih]; ring

/-! ## Claim theorems -/

/-- C1: For every decoded 48×48 pixel buffer, the embedding extractor
returns the normalization of the 6-element vector
`[mean_r, mean_g, mean_b, mean_brightness, contrast, mean_saturation]`
in exactly that order, where `mean_r = sum_r/(N²·255)` (`mean_g`,
`mean_b` analogous), `mean_brightness` is the average per-pixel
`(r+g+b)/(3·255)`, `contrast` is the square root of the brightness
variance floored at `0`, and `mean_saturation` is the average per-pixel
saturation. -/
theorem C1_embedding_vector (data : List Pixel)
    (h : data.length = CANVAS_SIZE * CANVAS_SIZE) :
    getImageEmbedding data = normalizeVector [specMeanR data, specMeanG data, specMeanB data,
      specMeanBrightness data, specContrast data, specMeanSaturation data] := rfl

theorem C1_embedding_vector_witness :
    (List.replicate (CANVAS_SIZE * CANVAS_SIZE) (Pixel.mk 0 0 0)).length
        = CANVAS_SIZE * CANVAS_SIZE ∧
    getImageEmbedding (List.replicate (CANVAS_SIZE * CANVAS_SIZE) (Pixel.mk 0 0 0))
      = normalizeVector
          [specMeanR (List.replicate (CANVAS_SIZE * CANVAS_SIZE) (Pixel.mk 0 0 0)),
           specMeanG (List.replicate (CANVAS_SIZE * CANVAS_SIZE) (Pixel.mk 0 0 0)),
           specMeanB (List.replicate (CANVAS_SIZE * CANVAS_SIZE) (Pixel.mk 0 0 0)),
           specMeanBrightness (List.replicate (CANVAS_SIZE * CANVAS_SIZE) (Pixel.mk 0 0 0)),
           specContrast (List.replicate (CANVAS_SIZE * CANVAS_SIZE) (Pixel.mk 0 0 0)),
           specMeanSaturation (List.replicate (CANVAS_SIZE * CANVAS_SIZE) (Pixel.mk 0 0 0))] :=
  ⟨List.length_replicate _ _, C1_embedding_vector _ (List.length_replicate _ _)⟩

/-- C2: The vector normalizer returns a vector of the same length whose
sum of squares is `1`, except when the Euclidean magnitude of the input
is `0` (non-finiteness cannot occur in the real-number model), in which
case it returns the all-zero vector of the same length — a defined
value, not an error. -/
theorem C2_normalizeVector_spec (v : List ℝ) :
    (normalizeVector v).length = v.length ∧
    (Real.sqrt (sumSq v) = 0 → normalizeVector v = List.replicate v.length 0) ∧
    (Real.sqrt (sumSq v) ≠ 0 → sumSq (normalizeVector v) = 1) :=
  ⟨normalizeVector_length v,
   fun h => normalizeVector_of_zero h,
   fun h => normalizeVector_of_ne_zero h⟩

theorem C2_normalizeVector_spec_witness :
    Real.sqrt (sumSq [(3 : ℝ), 4]) ≠ 0 ∧
    (normalizeVector [(3 : ℝ), 4]).length = 2 ∧
    sumSq (normalizeVector [(3 : ℝ), 4]) = 1 := by
  have h25 : sumSq [(3 : ℝ), 4] = 25 := by norm_num [sumSq]
  have h : Real.sqrt (sumSq [(3 : ℝ), 4]) ≠ 0 := by
    rw [h25]
    exact Real.sqrt_ne_zero'.mpr (by norm_num)
  exact ⟨h, (C2_normalizeVector_spec [(3 : ℝ), 4]).1,
    (C2_normalizeVector_spec [(3 : ℝ), 4]).2.2 h⟩

/-- C3: Cosine similarity over the truncated pair lies in `[-1, 1]`, the
mapped score `max 0 (similarity * 100)` lies in `[0, 100]`, and every
similarity score produced by the ranker lies in `[0, 100]`. -/
theorem C3_scores_bounded :
    (∀ a b : List ℝ, -1 ≤ cosineSimilarity a b ∧ cosineSimilarity a b ≤ 1) ∧
    (∀ a b : List ℝ, 0 ≤ max 0 (cosineSimilarity a b * 100) ∧
      max 0 (cosineSimilarity a b * 100) ≤ 100) ∧
    (∀ (img : List Pixel) (catalog : List CatalogEmbedding) (topK : ℕ)
      (s : SimilarityScore), s ∈ findSimilarProducts img catalog topK →
        0 ≤ s.similarity ∧ s.similarity ≤ 100) := by
  refine ⟨cosineSimilarity_in_Icc,
    fun a b => score_in_Icc _ (cosineSimilarity_in_Icc a b).2, ?_⟩
  intro img catalog topK s hs
  obtain ⟨e, _, rfl⟩ := mem_findSimilarProducts hs
  exact score_in_Icc _ (cosineSimilarity_in_Icc _ _).2

theorem C3_scores_bounded_witness :
    (⟨1, 0⟩ : SimilarityScore) ∈ findSimilarProducts [] [⟨1, []⟩] 12 ∧
    (0 ≤ (⟨1, 0⟩ : SimilarityScore).similarity ∧
      (⟨1, 0⟩ : SimilarityScore).similarity ≤ 100) := by
  have hmem : (⟨1, 0⟩ : SimilarityScore) ∈ findSimilarProducts [] [⟨1, []⟩] 12 := by
    simp [findSimilarProducts, scoreEntry, cosineSimilarity, sumMul, normalizeVector, sumSq]
  exact ⟨hmem, C3_scores_bounded.2.2 [] [⟨1, []⟩] 12 _ hmem⟩

/-- C5: If either operand of the cosine loop has zero squared magnitude
over the truncated shared prefix — in particular if either input is
all-zero — the similarity is `0` and the resulting score is `0`; a
value is produced, never an exception. -/
theorem C5_degenerate_zero (a b : List ℝ)
    (h : sumMul (min a.length b.length) a a = 0 ∨
      sumMul (min a.length b.length) b b = 0 ∨
      (∀ x ∈ a, x = 0) ∨ (∀ x ∈ b, x = 0)) :
    cosineSimilarity a b = 0 ∧ max 0 (cosineSimilarity a b * 100) = 0 := by
  have hz : sumMul (min a.length b.length) a a = 0 ∨
      sumMul (min a.length b.length) b b = 0 := by
    rcases h with h | h | h | h
    · exact Or.inl h
    · exact Or.inr h
    · exact Or.inl (sumMul_self_zero_of_forall h _)
    · exact Or.inr (sumMul_self_zero_of_forall h _)
  have hc := cosineSimilarity_of_degenerate hz
  refine ⟨hc, ?_⟩
  rw [hc, zero_mul, max_self]

theorem C5_degenerate_zero_witness :
    (∀ x ∈ [(0 : ℝ)], x = 0) ∧
    cosineSimilarity [(0 : ℝ)] [(1 : ℝ), 2] = 0 ∧
    max 0 (cosineSimilarity [(0 : ℝ)] [(1 : ℝ), 2] * 100) = 0 := by
  have h0 : ∀ x ∈ [(0 : ℝ)], x = 0 := by simp
  have h := C5_degenerate_zero [(0 : ℝ)] [(1 : ℝ), 2] (Or.inr (Or.inr (Or.inl h0)))
  exact ⟨h0, h.1, h.2⟩

/-- C4: For every query image, catalog with pairwise-distinct
identifiers, and `topK`, the ranker returns at most `topK` entries,
sorted by score non-increasing, whose identifiers form a duplicate-free
subset of the catalog's identifiers; a catalog with at most `topK`
entries is returned whole, and an empty catalog yields an empty result
(the ranker is a total function — it cannot raise). -/
theorem C4_rank_spec (img : List Pixel) (catalog : List CatalogEmbedding) (topK : ℕ)
    (hids : (catalog.map CatalogEmbedding.id).Nodup) :
    (findSimilarProducts img catalog topK).length ≤ topK ∧
    List.Sorted (fun s t => t.similarity ≤ s.similarity) (findSimilarProducts img catalog topK) ∧
    ((findSimilarProducts img catalog topK).map SimilarityScore.id).Nodup ∧
    (∀ i ∈ (findSimilarProducts img catalog topK).map SimilarityScore.id,
      i ∈ catalog.map CatalogEmbedding.id) ∧
    (catalog.length ≤ topK →
      (findSimilarProducts img catalog topK).length = catalog.length) ∧
    (catalog = [] → findSimilarProducts img catalog topK = []) := by
  have hperm : List.Perm ((catalog.map (scoreEntry (getImageEmbedding img))).mergeSort simLe)
      (catalog.map (scoreEntry (getImageEmbedding img))) :=
    List.mergeSort_perm _ simLe
  have hpermId : List.Perm
      (((catalog.map (scoreEntry (getImageEmbedding img))).mergeSort simLe).map
        SimilarityScore.id)
      (catalog.map CatalogEmbedding.id) := by
    have h := hperm.map SimilarityScore.id
    rwa [scored_map_id] at h
  refine ⟨?_, ?_, ?_, ?_, ?_, ?_⟩
  · rw [findSimilarProducts]
    exact List.length_take_le _ _
  · rw [findSimilarProducts]
    have hs := List.sorted_mergeSort simLe_trans simLe_total
      (catalog.map (scoreEntry (getImageEmbedding img)))
    have hs2 : List.Pairwise (fun s t : SimilarityScore => t.similarity ≤ s.similarity)
        ((catalog.map (scoreEntry (getImageEmbedding img))).mergeSort simLe) :=
      hs.imp fun hab => of_decide_eq_true hab
    exact hs2.sublist (List.take_sublist _ _)
  · rw [findSimilarProducts, List.map_take]
    exact List.Nodup.sublist (List.take_sublist _ _) (hpermId.nodup_iff.mpr hids)
  · intro i hi
    rw [findSimilarProducts, List.map_take] at hi
    exact hpermId.mem_iff.mp (List.mem_of_mem_take hi)
  · intro hk
    rw [findSimilarProducts, List.length_take, List.length_mergeSort, List.length_map]
    exact min_eq_right hk
  · intro hc
    subst hc
    simp [findSimilarProducts]

theorem C4_rank_spec_witness :
    (([⟨1, []⟩, ⟨2, []⟩] : List CatalogEmbedding).map CatalogEmbedding.id).Nodup ∧
    ((findSimilarProducts [] [⟨1, []⟩, ⟨2, []⟩] 1).length ≤ 1 ∧
      List.Sorted (fun s t => t.similarity ≤ s.similarity)
        (findSimilarProducts [] [⟨1, []⟩, ⟨2, []⟩] 1) ∧
      ((findSimilarProducts [] [⟨1, []⟩, ⟨2, []⟩] 1).map SimilarityScore.id).Nodup ∧
      (∀ i ∈ (findSimilarProducts [] [⟨1, []⟩, ⟨2, []⟩] 1).map SimilarityScore.id,
        i ∈ ([⟨1, []⟩, ⟨2, []⟩] : List CatalogEmbedding).map CatalogEmbedding.id) ∧
      (([⟨1, []⟩, ⟨2, []⟩] : List CatalogEmbedding).length ≤ 1 →
        (findSimilarProducts [] [⟨1, []⟩, ⟨2, []⟩] 1).length
          = ([⟨1, []⟩, ⟨2, []⟩] : List CatalogEmbedding).length) ∧
      (([⟨1, []⟩, ⟨2, []⟩] : List CatalogEmbedding) = [] →
        findSimilarProducts [] [⟨1, []⟩, ⟨2, []⟩] 1 = [])) := by
  have hids : (([⟨1, []⟩, ⟨2, []⟩] : List CatalogEmbedding).map CatalogEmbedding.id).Nodup := by
    decide
  exact ⟨hids, C4_rank_spec [] [⟨1, []⟩, ⟨2, []⟩] 1 hids⟩

/-- C8: Applying the vector normalizer twice gives the same result as
applying it once; the zero vector is a fixed point by definition. -/
theorem C8_normalize_idempotent (v : List ℝ) :
    normalizeVector (normalizeVector v) = normalizeVector v := by
  by_cases h : Real.sqrt (sumSq v) = 0
  · rw [normalizeVector_of_zero h]
    have h0 : Real.sqrt (sumSq (List.replicate v.length (0 : ℝ))) = 0 := by
      rw [sumSq_replicate_zero, Real.sqrt_zero]
    rw [normalizeVector_of_zero h0, List.length_replicate]
  · have h1 : sumSq (normalizeVector v) = 1 := normalizeVector_of_ne_zero h
    have hne : Real.sqrt (sumSq (normalizeVector v)) ≠ 0 := by
      rw [h1, Real.sqrt_one]
      exact one_ne_zero
    rw [normalizeVector, if_neg hne, h1, Real.sqrt_one]
    simp

/-- C10: The URL normalizer terminates on every input: the recursive
call is only made on the (non-empty) `imgurl` parameter value of a
parsed URL, which is strictly shorter than the containing URL string,
so a fuel bound equal to the input length already reaches the fixpoint
of the recursion. -/
theorem C10_normalizeImageUrl_terminates :
    (∀ (s : UrlStr) (u : ParsedURL) (v : UrlStr), parseURL s = some u →
      getParam u.params imgurlKey = some v → v.length < s.length) ∧
    (∀ (fuel : ℕ) (s : UrlStr), s.length ≤ fuel →
      normalizeImageUrlFuel fuel s = normalizeImageUrl s) := by
  refine ⟨fun s u v hp hg => getParam_parseURL_length hp hg, ?_⟩
  intro fuel
  induction fuel with
  | zero =>
    intro s hs
    have hnil : s = [] := List.length_eq_zero.mp (Nat.le_zero.mp hs)
    subst hnil
    rw [normalizeImageUrl_of_none (by decide)]
    rfl
  | succ fuel ih =>
    intro s hs
    rw [normalizeImageUrlFuel]
    split
    · rename_i hp
      rw [normalizeImageUrl_of_none hp]
    · rename_i u hp
      split
      · rename_i hg
        split
        · rename_i v hgp
          split
          · rename_i hv
            rw [normalizeImageUrl_of_fall hp (Or.inr (Or.inr (hv ▸ hgp)))]
          · rename_i hv
            rw [normalizeImageUrl_of_google hp hg hgp hv]
            have hlt := getParam_parseURL_length hp hgp
            exact ih v (by omega)
        · rename_i hgp
          rw [normalizeImageUrl_of_fall hp (Or.inr (Or.inl hgp))]
      · rename_i hg
        have hgf : (containsSeq googleHostPat u.host && containsSeq imgresPat u.path) = false := by
          simpa using hg
        rw [normalizeImageUrl_of_fall hp (Or.inl hgf)]

/-! Concrete URLs used by the witnesses and the counterexample. -/

def googleDemoUrl : UrlStr :=
  ['h', 't', 't', 'p', ':', '/', '/', 'g', 'o', 'o', 'g', 'l', 'e', '.', 'x',
   '/', 'i', 'm', 'g', 'r', 'e', 's', '?', 'i', 'm', 'g', 'u', 'r', 'l', '=', 'a']

def googleDemoParsed : ParsedURL :=
  ⟨httpScheme, ['g', 'o', 'o', 'g', 'l', 'e', '.', 'x'],
   ['/', 'i', 'm', 'g', 'r', 'e', 's'], [(imgurlKey, ['a'])]⟩

def demoHttpUrl : UrlStr := ['h', 't', 't', 'p', ':', '/', '/', 'h', '/', 'p']

def demoHttpParsed : ParsedURL := ⟨httpScheme, ['h'], ['/', 'p'], []⟩

def demoFtpUrl : UrlStr := ['f', 't', 'p', ':', '/', '/', 'x']

def demoFtpParsed : ParsedURL := ⟨['f', 't', 'p'], ['x'], ['/'], []⟩

theorem demoHttp_parse : parseURL demoHttpUrl = some demoHttpParsed := by decide

theorem demoHttp_norm : normalizeImageUrl demoHttpUrl = demoHttpUrl := by
  rw [normalizeImageUrl_of_fall demoHttp_parse (Or.inl (by decide)), unsplashStep,
    if_neg (by decide)]

theorem demoFtp_parse : parseURL demoFtpUrl = some demoFtpParsed := by decide

theorem demoFtp_norm : normalizeImageUrl demoFtpUrl = demoFtpUrl := by
  rw [normalizeImageUrl_of_fall demoFtp_parse (Or.inl (by decide)), unsplashStep,
    if_neg (by decide)]

theorem C10_normalizeImageUrl_terminates_witness :
    (parseURL googleDemoUrl = some googleDemoParsed ∧
      getParam googleDemoParsed.params imgurlKey = some ['a'] ∧
      (['a'] : UrlStr).length < googleDemoUrl.length) ∧
    ((['x'] : UrlStr).length ≤ 5 ∧
      normalizeImageUrlFuel 5 ['x'] = normalizeImageUrl ['x']) :=
  ⟨⟨by decide, by decide,
    C10_normalizeImageUrl_terminates.1 googleDemoUrl googleDemoParsed ['a']
      (by decide) (by decide)⟩,
   ⟨by decide, C10_normalizeImageUrl_terminates.2 5 ['x'] (by decide)⟩⟩

/-- C6: For every proxy request: an absent (or JS-falsy empty) `url`
parameter yields 400 `Missing url query parameter`; otherwise a
normalized parameter that does not parse yields 400
`Invalid URL supplied`; otherwise a scheme other than http/https yields
400 `Only http and https protocols are allowed` — in that order, and in
each of these cases the result is the same for every fetch oracle, i.e.
no outbound fetch is consulted. -/
theorem C6_proxy_validation (t : UrlStr) (u : ParsedURL) :
    (∀ f, proxyGET none f = ⟨400, .jsonError "Missing url query parameter"⟩) ∧
    (∀ f, proxyGET (some []) f = ⟨400, .jsonError "Missing url query parameter"⟩) ∧
    (t ≠ [] → parseURL (normalizeImageUrl t) = none →
      ∀ f, proxyGET (some t) f = ⟨400, .jsonError "Invalid URL supplied"⟩) ∧
    (t ≠ [] → parseURL (normalizeImageUrl t) = some u →
      ¬(u.scheme = httpScheme ∨ u.scheme = httpsScheme) →
      ∀ f, proxyGET (some t) f
        = ⟨400, .jsonError "Only http and https protocols are allowed"⟩) := by
  refine ⟨fun f => rfl, fun f => rfl, ?_, ?_⟩
  · intro ht hp f
    simp only [proxyGET, if_neg ht, hp]
  · intro ht hp hs f
    simp only [proxyGET, if_neg ht, hp]
    rw [if_neg hs]

theorem C6_proxy_validation_witness :
    proxyGET none (fun _ => .throws) = ⟨400, .jsonError "Missing url query parameter"⟩ ∧
    proxyGET (some []) (fun _ => .throws) = ⟨400, .jsonError "Missing url query parameter"⟩ ∧
    ((['h'] : UrlStr) ≠ [] ∧ parseURL (normalizeImageUrl ['h']) = none ∧
      proxyGET (some ['h']) (fun _ => .throws)
        = ⟨400, .jsonError "Invalid URL supplied"⟩) ∧
    (demoFtpUrl ≠ [] ∧ parseURL (normalizeImageUrl demoFtpUrl) = some demoFtpParsed ∧
      ¬(demoFtpParsed.scheme = httpScheme ∨ demoFtpParsed.scheme = httpsScheme) ∧
      proxyGET (some demoFtpUrl) (fun _ => .throws)
        = ⟨400, .jsonError "Only http and https protocols are allowed"⟩) := by
  have hh : parseURL (normalizeImageUrl ['h']) = none := by
    rw [normalizeImageUrl_of_none (by decide)]
    decide
  have hf : parseURL (normalizeImageUrl demoFtpUrl) = some demoFtpParsed := by
    rw [demoFtp_norm]
    exact demoFtp_parse
  refine ⟨(C6_proxy_validation [] demoFtpParsed).1 _,
    (C6_proxy_validation [] demoFtpParsed).2.1 _,
    ⟨by decide, hh, (C6_proxy_validation ['h'] demoFtpParsed).2.2.1 (by decide) hh _⟩,
    ⟨by decide, hf, by decide,
      (C6_proxy_validation demoFtpUrl demoFtpParsed).2.2.2 (by decide) hf (by decide) _⟩⟩

/-- C7 counterexample: a validated request whose upstream fetch returns
a non-success status 404 makes the proxy answer with status 404
(`upstreamResponse.status || 502`), not 502, refuting the claim that
such responses always carry HTTP status 502. -/
theorem C7_counterexample :
    (proxyGET (some demoHttpUrl) (fun _ => .resp ⟨false, 404, true⟩)).status = 404 ∧
    (proxyGET (some demoHttpUrl) (fun _ => .resp ⟨false, 404, true⟩)).body
      = .jsonError "Failed to fetch remote image" ∧
    (proxyGET (some demoHttpUrl) (fun _ => .resp ⟨false, 404, true⟩)).status ≠ 502 := by
  refine ⟨?_, ?_, ?_⟩ <;>
    · simp only [proxyGET, if_neg (show ¬(demoHttpUrl = []) by decide), demoHttp_norm,
        demoHttp_parse]
      decide

/-- C7 (amended): on a validated request, an upstream response with
non-success status or missing body yields the JSON error
`Failed to fetch remote image` with the upstream status (or 502 when
the status is unavailable/zero), and a thrown transport failure yields
502 with `Unexpected proxy failure`. -/
theorem C7_upstream_error (t : UrlStr) (u : ParsedURL)
    (ht : t ≠ []) (hp : parseURL (normalizeImageUrl t) = some u)
    (hs : u.scheme = httpScheme ∨ u.scheme = httpsScheme) :
    (∀ (f : UrlStr → FetchOutcome) (r : UpstreamResponse),
      f (serializeURL u) = .resp r → (r.ok = false ∨ r.hasBody = false) →
      proxyGET (some t) f
        = ⟨if r.status = 0 then 502 else r.status,
           .jsonError "Failed to fetch remote image"⟩) ∧
    (∀ f : UrlStr → FetchOutcome, f (serializeURL u) = .throws →
      proxyGET (some t) f = ⟨502, .jsonError "Unexpected proxy failure"⟩) := by
  constructor
  · intro f r hf hr
    simp only [proxyGET, if_neg ht, hp]
    rw [if_pos hs, hf]
    simp only []
    rw [if_pos hr]
  · intro f hf
    simp only [proxyGET, if_neg ht, hp]
    rw [if_pos hs, hf]

theorem C7_upstream_error_witness :
    demoHttpUrl ≠ [] ∧
    parseURL (normalizeImageUrl demoHttpUrl) = some demoHttpParsed ∧
    (demoHttpParsed.scheme = httpScheme ∨ demoHttpParsed.scheme = httpsScheme) ∧
    proxyGET (some demoHttpUrl) (fun _ => .resp ⟨false, 404, true⟩)
      = ⟨404, .jsonError "Failed to fetch remote image"⟩ ∧
    proxyGET (some demoHttpUrl) (fun _ => .throws)
      = ⟨502, .jsonError "Unexpected proxy failure"⟩ := by
  have hp : parseURL (normalizeImageUrl demoHttpUrl) = some demoHttpParsed := by
    rw [demoHttp_norm]
    exact demoHttp_parse
  have h := C7_upstream_error demoHttpUrl demoHttpParsed (by decide) hp (Or.inl (by decide))
  have h4 := h.1 (fun _ => .resp ⟨false, 404, true⟩) ⟨false, 404, true⟩ rfl (Or.inl rfl)
  refine ⟨by decide, hp, Or.inl (by decide), ?_, h.2 _ rfl⟩
  simpa using h4

/-- C9: For every parseable URL whose host is the resizing CDN
`images.unsplash.com`, the URL normalizer returns a URL whose parse has
the same scheme, host and path, and whose parameters are the input's
parameters with exactly the missing ones among `auto`, `fit`, `fm`
appended with their default values: all three keys are present
afterwards, a missing key gets its default (`format`/`crop`/`jpg`),
every key already present keeps its original (first-occurrence) value,
and every other key is untouched. -/
theorem C9_unsplash_params (s : UrlStr) (u : ParsedURL)
    (hp : parseURL s = some u) (hhost : u.host = unsplashHost) :
    parseURL (normalizeImageUrl s)
      = some { u with params := ensureUnsplashParams u.params } ∧
    hasParam (ensureUnsplashParams u.params) autoKey = true ∧
    hasParam (ensureUnsplashParams u.params) fitKey = true ∧
    hasParam (ensureUnsplashParams u.params) fmKey = true ∧
    (hasParam u.params autoKey = false →
      getParam (ensureUnsplashParams u.params) autoKey = some formatVal) ∧
    (hasParam u.params fitKey = false →
      getParam (ensureUnsplashParams u.params) fitKey = some cropVal) ∧
    (hasParam u.params fmKey = false →
      getParam (ensureUnsplashParams u.params) fmKey = some jpgVal) ∧
    (∀ k, hasParam u.params k = true →
      getParam (ensureUnsplashParams u.params) k = getParam u.params k) ∧
    (∀ k, k ≠ autoKey → k ≠ fitKey → k ≠ fmKey →
      hasParam (ensureUnsplashParams u.params) k = hasParam u.params k ∧
      getParam (ensureUnsplashParams u.params) k = getParam u.params k) := by
  obtain ⟨h1, h2, h3, h4, h5, h6, h7, h8⟩ := parseURL_wellFormed hp
  have hwf : WellFormedURL { u with params := ensureUnsplashParams u.params } :=
    ⟨h1, h2, h3, h4, h5, h6, h7, ensureUnsplashParams_wellFormed h8⟩
  have hfall : (containsSeq googleHostPat u.host && containsSeq imgresPat u.path) = false := by
    rw [hhost, show containsSeq googleHostPat unsplashHost = false from by decide,
      Bool.false_and]
  have hnorm : normalizeImageUrl s
      = serializeURL { u with params := ensureUnsplashParams u.params } := by
    rw [normalizeImageUrl_of_fall hp (Or.inl hfall), unsplashStep,
      if_pos (by rw [hhost]; decide)]
  refine ⟨?_,
    (ensureUnsplashParams_has u.params).1,
    (ensureUnsplashParams_has u.params).2.1,
    (ensureUnsplashParams_has u.params).2.2,
    (ensureUnsplashParams_defaults u.params).1,
    (ensureUnsplashParams_defaults u.params).2.1,
    (ensureUnsplashParams_defaults u.params).2.2,
    ?_, ?_⟩
  · rw [hnorm]
    exact parseURL_serializeURL hwf
  · intro k hk
    rw [ensureUnsplashParams_eq, getParam_append, if_pos hk]
  · intro k hk1 hk2 hk3
    exact ensureUnsplashParams_other_keys u.params k hk1 hk2 hk3

def unsplashDemoUrl : UrlStr :=
  ['h', 't', 't', 'p', ':', '/', '/'] ++ unsplashHost ++ ['/', 'a']

def unsplashDemoParsed : ParsedURL := ⟨httpScheme, unsplashHost, ['/', 'a'], []⟩

theorem unsplashDemo_parse : parseURL unsplashDemoUrl = some unsplashDemoParsed := by
  decide

theorem C9_unsplash_params_witness :
    parseURL unsplashDemoUrl = some unsplashDemoParsed ∧
    unsplashDemoParsed.host = unsplashHost ∧
    parseURL (normalizeImageUrl unsplashDemoUrl)
      = some { unsplashDemoParsed with
          params := ensureUnsplashParams unsplashDemoParsed.params } ∧
    hasParam (ensureUnsplashParams unsplashDemoParsed.params) autoKey = true :=
  ⟨unsplashDemo_parse, rfl,
   (C9_unsplash_params unsplashDemoUrl unsplashDemoParsed unsplashDemo_parse rfl).1,
   (C9_unsplash_params unsplashDemoUrl unsplashDemoParsed unsplashDemo_parse rfl).2.1⟩

end VPM
